import Mathlib

/-!
Verification of the `brr` RSVP speed-reading core.

Shallow embedding of the Go sources:
* `internal/reader/reader.go` (current revision, the one with chapter
  support and rune-based ORP): tokenizer, sentence indexer, ORP
  calculator, and the `Reader` session state machine.
* `internal/reader/markdown.go`: Markdown chapter extraction.
* EPUB chapter extraction (`EPUBFormat.ExtractChapters`).
* `internal/state`: the position store.
* `main.go` model update: the speed-change keys.

Strings are modelled as `List Char` (one entry per rune).  Go word
strings produced by `strings.Fields` never contain whitespace, and the
sentence terminators `.` `!` `?` are ASCII, so Go's last-byte test on a
UTF-8 string agrees with the last-rune test used here.  Go `int` fields
that only ever hold non-negative values in the program (word indices,
list lengths) are modelled as `Nat`; values that the code compares
against negative bounds (the `JumpToChapter` argument, `WPM`) are
modelled as `Int`.
-/

namespace Brr

/-- Go `unicode.IsSpace`: ASCII whitespace, U+0085, U+00A0, and the
Unicode `White_Space` code points. -/
def isGoSpace (c : Char) : Bool :=
  c = ' ' ∨ c = '\t' ∨ c = '\n' ∨ c = (Char.ofNat 0x0B) ∨ c = (Char.ofNat 0x0C) ∨
  c = '\r' ∨ c = (Char.ofNat 0x85) ∨ c = (Char.ofNat 0xA0) ∨
  c = (Char.ofNat 0x1680) ∨
  (0x2000 ≤ c.toNat ∧ c.toNat ≤ 0x200A) ∨
  c = (Char.ofNat 0x2028) ∨ c = (Char.ofNat 0x2029) ∨
  c = (Char.ofNat 0x202F) ∨ c = (Char.ofNat 0x205F) ∨ c = (Char.ofNat 0x3000)

/-- Accumulator pass of Go `strings.Fields`: split around runs of
whitespace, dropping empty fields.  `acc` holds the current field in
reverse. -/
def fieldsAux : List Char → List Char → List (List Char)
  | [], acc => if acc.isEmpty then [] else [acc.reverse]
  | c :: rest, acc =>
    if isGoSpace c then
      if acc.isEmpty then fieldsAux rest [] else acc.reverse :: fieldsAux rest []
    else fieldsAux rest (c :: acc)

/-- Go `strings.Fields`. -/
def fields (s : List Char) : List (List Char) := fieldsAux s []

/-- `ParseText` from `reader.go`: `strings.Fields(text)`. -/
def parseText (text : List Char) : List (List Char) := fields text

/-- Last byte of a word is `.`, `!` or `?` (on `strings.Fields` output the
last byte of the Go string is one of these ASCII bytes iff the last rune
is). -/
def endsSentence (w : List Char) : Bool :=
  match w.getLast? with
  | some c => c = '.' ∨ c = '!' ∨ c = '?'
  | none => false

/-- The loop body of `FindSentenceStarts`: scans `(index, word)` pairs,
appending `i+1` whenever word `i` ends a sentence and `i+1 < n`. -/
def sentenceAux (n : Nat) : List (Nat × List Char) → List Nat
  | [] => []
  | (i, w) :: rest =>
    if endsSentence w ∧ i + 1 < n then (i + 1) :: sentenceAux n rest
    else sentenceAux n rest

/-- `FindSentenceStarts` from `reader.go`: `starts := []int{0}` then the
scan (note: the initial `0` is present even for an empty word list). -/
def findSentenceStarts (words : List (List Char)) : List Nat :=
  0 :: sentenceAux words.length words.enum

/-- `GetORPPosition` from `reader.go` (current revision): operates on
`utf8.RuneCountInString(word)`, which is the length of the rune list. -/
def getORPPosition (word : List Char) : Nat :=
  if word.length ≤ 1 then 0
  else if word.length ≤ 5 then 1
  else word.length / 3

/-- `Chapter` from `toc.go`. -/
structure Chapter where
  title : List Char
  wordStart : Nat
  wordEnd : Nat
deriving DecidableEq

/-- `TOCEntry` from `toc.go`. -/
structure TOCEntry where
  title : List Char
  preview : List Char
  wordIndex : Nat
  level : Nat
deriving DecidableEq

/-- `Reader` from `reader.go`.  `LastArrowPress` (a wall-clock value that
only debounces key handling in `main.go`) is omitted: no claim and no
session operation modelled here reads it. -/
structure Reader where
  words : List (List Char)
  sentenceStarts : List Nat
  currentIndex : Nat
  wpm : Int
  paused : Bool
  chapters : List Chapter
  toc : List TOCEntry
  currentChapter : Nat
deriving DecidableEq

/-- `NewReader` from `reader.go`; the chapter fields get Go zero values. -/
def newReader (text : List Char) (wpm : Int) : Reader :=
  let words := parseText text
  { words := words
    sentenceStarts := findSentenceStarts words
    currentIndex := 0
    wpm := wpm
    paused := false
    chapters := []
    toc := []
    currentChapter := 0 }

/-- `Advance` from `reader.go`: the Go test `CurrentIndex < len(Words)-1`
over `int` agrees with the truncated `Nat` subtraction used here because
`CurrentIndex ≥ 0`. -/
def Reader.advance (r : Reader) : Reader × Bool :=
  if r.currentIndex < r.words.length - 1 then
    ({ r with currentIndex := r.currentIndex + 1 }, true)
  else (r, false)

/-- `Progress` from `reader.go`. -/
def Reader.progress (r : Reader) : Nat × Nat :=
  (r.currentIndex + 1, r.words.length)

/-- The descending scan of `JumpToPrevSentence`: first entry `< cur`
when walking the list from the end, i.e. head of the reversed list. -/
def prevScan : List Nat → Nat → Option Nat
  | [], _ => none
  | s :: rest, cur => if s < cur then some s else prevScan rest cur

/-- `JumpToPrevSentence` from `reader.go`. -/
def Reader.jumpToPrevSentence (r : Reader) : Reader :=
  { r with currentIndex := (prevScan r.sentenceStarts.reverse r.currentIndex).getD 0 }

/-- The ascending scan of `JumpToNextSentence`: first entry `> cur`. -/
def nextScan : List Nat → Nat → Option Nat
  | [], _ => none
  | s :: rest, cur => if cur < s then some s else nextScan rest cur

/-- `JumpToNextSentence` from `reader.go`: falls back to `len(Words)-1`
only when the word list is non-empty. -/
def Reader.jumpToNextSentence (r : Reader) : Reader :=
  match nextScan r.sentenceStarts r.currentIndex with
  | some s => { r with currentIndex := s }
  | none =>
    if 0 < r.words.length then { r with currentIndex := r.words.length - 1 }
    else r

/-- The descending loop of `updateCurrentChapter`: scans `(index,
chapter)` pairs from the highest index down, returning the first index
whose chapter has `WordStart ≤ cur`; `0` when none does. -/
def chapterScan : List (Nat × Chapter) → Nat → Nat
  | [], _ => 0
  | (i, c) :: rest, cur => if c.wordStart ≤ cur then i else chapterScan rest cur

/-- `updateCurrentChapter` from `reader.go`. -/
def Reader.updateCurrentChapter (r : Reader) : Reader :=
  { r with currentChapter := chapterScan r.chapters.enum.reverse r.currentIndex }

/-- `JumpToChapter` from `reader.go`: no-op unless
`0 ≤ wordIndex < len(Words)`. -/
def Reader.jumpToChapter (r : Reader) (wordIndex : Int) : Reader :=
  if 0 ≤ wordIndex ∧ wordIndex < (r.words.length : Int) then
    ({ r with currentIndex := wordIndex.toNat } : Reader).updateCurrentChapter
  else r

/-- `SetChapters` from `reader.go`. -/
def Reader.setChapters (r : Reader) (chapters : List Chapter) (toc : List TOCEntry) : Reader :=
  ({ r with chapters := chapters, toc := toc } : Reader).updateCurrentChapter

/-- The `"+"`/`"up"` key handler in `main.go`'s `model.Update`:
`if m.WPM < 1500 { m.WPM += 50 }`. -/
def Reader.increaseSpeed (r : Reader) : Reader :=
  if r.wpm < 1500 then { r with wpm := r.wpm + 50 } else r

/-- The `"-"`/`"down"` key handler in `main.go`'s `model.Update`:
`if m.WPM > 100 { m.WPM -= 50 }`. -/
def Reader.decreaseSpeed (r : Reader) : Reader :=
  if 100 < r.wpm then { r with wpm := r.wpm - 50 } else r

/-!  `GetDelay` (reader.go): `time.Duration(60.0/float64(r.WPM)*1000) *
time.Millisecond`.  Both float operations are IEEE-754 binary64 with
round-to-nearest-even, and the `time.Duration` conversion truncates
toward zero; the emulation below performs the two roundings exactly on
rational numbers (no overflow or subnormals occur for the WPM values any
claim touches, so exponent clamping is not modelled). -/

/-- Normalise the positive rational `num/den` (times `2^e`) so that
`2^52 * den ≤ num < 2^53 * den`, i.e. onto the binary64 significand
range; the literals are `2^52` and `2^53`. -/
def scaleLoop : Nat → Nat → Nat → Int → Nat × Nat × Int
  | 0, num, den, e => (num, den, e)
  | fuel+1, num, den, e =>
    if num < 4503599627370496 * den then scaleLoop fuel (2*num) den (e-1)
    else if 9007199254740992 * den ≤ num then scaleLoop fuel num (2*den) (e+1)
    else (num, den, e)

/-- Round the rational `p/q` to the nearest integer, ties to even. -/
def roundNearestEven (p q : Nat) : Nat :=
  let m := p / q
  let r := p % q
  if 2*r < q then m
  else if q < 2*r then m+1
  else if m % 2 = 0 then m else m+1

/-- Round the positive rational `num/den` to the nearest binary64 value,
returned as a dyadic pair `(m, e)` meaning `m * 2^e`. -/
def roundRatToDouble (num den : Nat) : Nat × Int :=
  let t := scaleLoop 80 num den 0
  (roundNearestEven t.1 t.2.1, t.2.2)

/-- Truncate the dyadic `m * 2^e` toward zero (Go float-to-int
conversion on a non-negative value). -/
def dyadicTrunc (m : Nat) (e : Int) : Nat :=
  if 0 ≤ e then m * 2^e.toNat else m / 2^(-e).toNat

/-- Multiply the dyadic `m * 2^e` by the exact integer `k` and round the
product to binary64 again. -/
def dyadicMulNatRound (m : Nat) (e : Int) (k : Nat) : Nat × Int :=
  if 0 ≤ e then roundRatToDouble (m * k * 2^e.toNat) 1
  else roundRatToDouble (m * k) (2^(-e).toNat)

/-- `GetDelay` in milliseconds for a positive `wpm`:
`trunc(fl(fl(60.0 / wpm) * 1000))` with binary64 roundings. -/
def goDelayMs (wpm : Nat) : Nat :=
  let d1 := roundRatToDouble 60 wpm
  let d2 := dyadicMulNatRound d1.1 d1.2 1000
  dyadicTrunc d2.1 d2.2

/-- `GetDelay` of a session, in milliseconds. -/
def Reader.getDelayMs (r : Reader) : Nat := goDelayMs r.wpm.toNat

/-! ## Position store (`internal/state`) -/

/-- Association-list lookup with Go-map semantics (first match wins;
the store operations below keep at most one entry per key). -/
def lookupFp : List (List Char × Int) → List Char → Option Int
  | [], _ => none
  | (k, v) :: rest, fp => if k = fp then some v else lookupFp rest fp

/-- `StateStore` (`internal/state`): the in-memory map, modelled as an
association list; the JSON file mirror and the `RWMutex` are I/O and
concurrency plumbing outside the shallow embedding. -/
structure StateStore where
  data : List (List Char × Int)
deriving DecidableEq

/-- A `NewStateStore` result when no prior file exists (or loading
failed): the empty map. -/
def emptyStore : StateStore := ⟨[]⟩

/-- `GetPosition`: saved position, `0` if unknown. -/
def StateStore.getPosition (s : StateStore) (fp : List Char) : Int :=
  (lookupFp s.data fp).getD 0

/-- `SetPosition`: map upsert (`s.data[hash] = ReadingState{wordIndex}`). -/
def StateStore.setPosition (s : StateStore) (fp : List Char) (n : Int) : StateStore :=
  ⟨(fp, n) :: s.data.filter (fun p => decide (p.1 ≠ fp))⟩

/-- `Clear`: map delete (`delete(s.data, hash)`). -/
def StateStore.clear (s : StateStore) (fp : List Char) : StateStore :=
  ⟨s.data.filter (fun p => decide (p.1 ≠ fp))⟩

/-- A store mutation, for talking about operation sequences. -/
inductive StoreOp where
  | set : List Char → Int → StoreOp
  | clear : List Char → StoreOp
deriving DecidableEq

/-- Whether an operation writes the key `fp`. -/
def StoreOp.setsKey : StoreOp → List Char → Bool
  | .set k _, fp => k = fp
  | .clear _, _ => false

/-- Run one store operation. -/
def applyOp (s : StateStore) : StoreOp → StateStore
  | .set k n => s.setPosition k n
  | .clear k => s.clear k

/-- Run a sequence of store operations. -/
def applyOps (s : StateStore) (ops : List StoreOp) : StateStore :=
  ops.foldl applyOp s

/-! ## Markdown chapter extraction (`internal/reader/markdown.go`) -/

/-- Go regexp `\s`, i.e. `[\t\n\f\r ]` (ASCII only, unlike
`unicode.IsSpace`). -/
def isRegexSpace (c : Char) : Bool :=
  c = '\t' ∨ c = '\n' ∨ c = (Char.ofNat 0x0C) ∨ c = '\r' ∨ c = ' '

/-- Go `strings.TrimSpace`. -/
def trimSpace (s : List Char) : List Char :=
  ((s.dropWhile isGoSpace).reverse.dropWhile isGoSpace).reverse

/-- `headerRegex.FindStringSubmatch(line)` for
`^(#{1,6})\s+(.+)$`: `some (h, m2)` gives the number of leading `#`
(`match[1]`) and `match[2]`.  A greedy `#{1,6}` forces the hash run to be
taken whole (a seventh `#` fails `\s`); `\s+` then takes the maximal
whitespace run, backtracking one character when nothing would remain for
`.+`. -/
def headerMatch (line : List Char) : Option (Nat × List Char) :=
  let run := (line.takeWhile (fun c => decide (c = '#'))).length
  if 1 ≤ run ∧ run ≤ 6 then
    let rest := line.drop run
    let ws := rest.takeWhile isRegexSpace
    let rem := rest.drop ws.length
    if ws.isEmpty then none
    else if rem.isEmpty then
      match ws.getLast? with
      | some c => if 2 ≤ ws.length then some (run, [c]) else none
      | none => none
    else some (run, rem)
  else none

/-- The loop state of `MarkdownFormat.ExtractChapters`: accumulated
words, closed chapters, the open chapter (`title`, `WordStart`) if any,
and the words seen since it opened. -/
structure MdState where
  allWords : List (List Char)
  chapters : List Chapter
  current : Option (List Char × Nat)
  currentWords : List (List Char)

/-- Close the open chapter (if any, and only if it saw words), recording
`WordEnd = len(allWords)-1`. -/
def mdCloseCurrent (st : MdState) : List Chapter :=
  match st.current with
  | some tw =>
    if st.currentWords.isEmpty then st.chapters
    else st.chapters ++ [⟨tw.1, tw.2, st.allWords.length - 1⟩]
  | none => st.chapters

/-- One line of the `ExtractChapters` scan: a header line closes the
open chapter and opens a new one at the current word count; every line's
fields are then appended to `allWords` and `currentWords`. -/
def mdStep (st : MdState) (line : List Char) : MdState :=
  let st1 : MdState :=
    match headerMatch line with
    | some m =>
      { allWords := st.allWords
        chapters := mdCloseCurrent st
        current := some (trimSpace m.2, st.allWords.length)
        currentWords := [] }
    | none => st
  let ws := fields line
  { st1 with allWords := st1.allWords ++ ws, currentWords := st1.currentWords ++ ws }

/-- `MarkdownFormat.ExtractChapters` over the file's lines (the
`bufio.Scanner` yields lines without their newline): the scan, the final
close, and the synthetic `"Document"` chapter when a headerless file has
words. -/
def markdownExtractChapters (lines : List (List Char)) : List Chapter × List (List Char) :=
  let st := lines.foldl mdStep ⟨[], [], none, []⟩
  let closed := mdCloseCurrent st
  let chapters :=
    if closed.isEmpty ∧ ¬ st.allWords.isEmpty then
      [⟨"Document".toList, 0, st.allWords.length - 1⟩]
    else closed
  (chapters, st.allWords)

/-! ## EPUB chapter extraction (`EPUBFormat.ExtractChapters`) -/

/-- Go `path.Base`. -/
def pathBase (p : List Char) : List Char :=
  if p.isEmpty then ".".toList
  else
    let q := (p.reverse.dropWhile (fun c => decide (c = '/'))).reverse
    if q.isEmpty then "/".toList
    else (q.reverse.takeWhile (fun c => decide (¬ c = '/'))).reverse

/-- Association-list lookup for the `tocByHref` map. -/
def lookupStr : List (List Char × List Char) → List Char → Option (List Char)
  | [], _ => none
  | (k, v) :: rest, key => if k = key then some v else lookupStr rest key

/-- Decimal rendering for `fmt.Sprintf("Section %d", i+1)`. -/
def sectionTitle (i : Nat) : List Char :=
  "Section ".toList ++ Nat.toDigits 10 (i + 1)

/-- One spine itemref as far as `ExtractChapters` consumes it: its
`HREF`, and the text recovered by `extractTextFromHTML` (`none` models a
nil item or an item whose open/read failed; a parse failure yields
`some []`, Go's empty string). -/
structure SpineItem where
  href : List Char
  text : Option (List Char)

/-- Chapter title resolution in `EPUBFormat.ExtractChapters`: exact href
match in `tocByHref`, then basename match, else `"Section N"` with the
1-based spine index. -/
def epubChapterTitle (tocByHref : List (List Char × List Char)) (i : Nat)
    (href : List Char) : List Char :=
  let deflt := sectionTitle i
  if href.isEmpty then deflt
  else
    match lookupStr tocByHref href with
    | some t => t
    | none =>
      match lookupStr tocByHref (pathBase href) with
      | some t => t
      | none => deflt

/-- The body of the spine loop in `EPUBFormat.ExtractChapters`:
unreadable and wordless items are skipped; otherwise the item's words
are appended and become one chapter. -/
def epubStep (tocByHref : List (List Char × List Char))
    (st : List Chapter × List (List Char)) (p : Nat × SpineItem) :
    List Chapter × List (List Char) :=
  match p.2.text with
  | none => st
  | some text =>
    let words := fields text
    if words.isEmpty then st
    else
      let wordStart := st.2.length
      let allWords2 := st.2 ++ words
      let title := epubChapterTitle tocByHref p.1 p.2.href
      (st.1 ++ [⟨title, wordStart, allWords2.length - 1⟩], allWords2)

/-- `EPUBFormat.ExtractChapters` over the spine (NCX parsing abstracted
into the `tocByHref` association list it produces). -/
def epubExtractChapters (tocByHref : List (List Char × List Char))
    (spine : List SpineItem) : List Chapter × List (List Char) :=
  spine.enum.foldl (epubStep tocByHref) ([], [])

/-! ## Spec-side definitions (from the spec's words, for comparison) -/

/-- Modelled from the spec: `CurrentChapter` is "the largest index `i`
such that `Chapters[i].WordStart ≤ CurrentIndex` (0 if no chapters)":
the last index of the increasing index list that qualifies, `0` when
none does. -/
def specCurrentChapter (chapters : List Chapter) (cur : Nat) : Nat :=
  (((chapters.enum.filter (fun p => decide (p.2.wordStart ≤ cur))).map Prod.fst).getLast?).getD 0

/-- Modelled from the spec: the largest sentence-start strictly below
`cur`, `0` when none exists. -/
def specPrevTarget (starts : List Nat) (cur : Nat) : Nat :=
  (starts.filter (fun s => decide (s < cur))).foldr Nat.max 0

/-- Modelled from the spec: the smallest sentence-start strictly above
`cur`, `len - 1` when none exists. -/
def specNextTarget (starts : List Nat) (cur len : Nat) : Nat :=
  match (starts.filter (fun s => decide (cur < s))).min? with
  | some m => m
  | none => len - 1

/-- Chapters are contiguous: each chapter starts right after the
previous one ends. -/
def ChaptersContiguous (cs : List Chapter) : Prop :=
  ∀ i, (h : i + 1 < cs.length) → cs[i + 1].wordStart = cs[i].wordEnd + 1

/-- Invariant of the Markdown chapter scan: closed chapters are
contiguous and well-formed, and the open chapter (when present) has seen
at least one word (its header line's own words), accounts for exactly
the words since it opened, and starts right after the last closed
chapter. -/
def MdInv (st : MdState) : Prop :=
  ChaptersContiguous st.chapters
  ∧ (∀ c ∈ st.chapters, c.wordStart ≤ c.wordEnd)
  ∧ (match st.current with
     | none => st.chapters = []
     | some tw =>
       tw.2 + st.currentWords.length = st.allWords.length
       ∧ st.currentWords ≠ []
       ∧ (∀ l2, st.chapters.getLast? = some l2 → l2.wordEnd + 1 = tw.2))

/-- Invariant of the EPUB spine loop: chapters are contiguous,
well-formed, and the last one ends exactly at the current word count. -/
def EpubInv (st : List Chapter × List (List Char)) : Prop :=
  ChaptersContiguous st.1
  ∧ (∀ c ∈ st.1, c.wordStart ≤ c.wordEnd)
  ∧ (∀ l2, st.1.getLast? = some l2 → l2.wordEnd + 1 = st.2.length)

/-! # Theorems -/

/-- C1: `GetORPPosition` is determined by the word's character (rune)
count `L` alone — `0` for `L ≤ 1` (including the empty word), `1` for
`2 ≤ L ≤ 5`, `⌊L/3⌋` for `L ≥ 6` — so words of equal character count,
multi-byte or not, get the same position. -/
theorem orpPosition_char_count (w : List Char) :
    (w.length ≤ 1 → getORPPosition w = 0)
    ∧ (2 ≤ w.length → w.length ≤ 5 → getORPPosition w = 1)
    ∧ (6 ≤ w.length → getORPPosition w = w.length / 3)
    ∧ (∀ v : List Char, w.length = v.length → getORPPosition w = getORPPosition v) := by
  refine ⟨?_, ?_, ?_, ?_⟩
  · intro h; simp [getORPPosition, h]
  · intro h1 h2; unfold getORPPosition; split_ifs <;> omega
  · intro h; unfold getORPPosition; split_ifs <;> omega
  · intro v h; unfold getORPPosition; rw [h]

/-- Witness for C1: concrete positions, including a multi-byte word
agreeing with an ASCII word of the same character count. -/
theorem orpPosition_char_count_witness :
    getORPPosition "été".toList = 1
    ∧ getORPPosition "reading".toList = 2
    ∧ getORPPosition "été".toList = getORPPosition "abc".toList :=
  ⟨(orpPosition_char_count _).2.1 (by decide) (by decide),
   ((orpPosition_char_count _).2.2.1 (by decide)).trans (by decide),
   (orpPosition_char_count _).2.2.2 _ (by decide)⟩

/-- C3 counterexample: the speed keys do not clamp `WPM + 50` into
`[100, 1500]`; from `WPM = 1480` (reachable via the `-w` flag) an
increase yields `1530`, not `clamp(1480+50) = 1500`. -/
theorem speedChange_not_clamp :
    ((newReader "Hello world".toList 1480).increaseSpeed).wpm = 1530
    ∧ ((newReader "Hello world".toList 1480).increaseSpeed).wpm ≠
        max 100 (min 1500 ((newReader "Hello world".toList 1480).wpm + 50)) := by
  decide

/-- C3 amended: a speed increase adds 50 only when `WPM < 1500` and a
decrease subtracts 50 only when `WPM > 100`, with no clamping; starting
from 1500 an increase leaves 1500 and from 100 a decrease leaves 100,
and `WPM` stays within `[100, 1500]` from any multiple of 50 in that
range. -/
theorem speedChange_guarded (r : Reader) (h1 : 100 ≤ r.wpm) (h2 : r.wpm ≤ 1500)
    (h3 : 50 ∣ r.wpm) :
    (100 ≤ r.increaseSpeed.wpm ∧ r.increaseSpeed.wpm ≤ 1500)
    ∧ (100 ≤ r.decreaseSpeed.wpm ∧ r.decreaseSpeed.wpm ≤ 1500)
    ∧ (r.wpm = 1500 → r.increaseSpeed.wpm = 1500)
    ∧ (r.wpm = 100 → r.decreaseSpeed.wpm = 100) := by
  obtain ⟨k, hk⟩ := h3
  unfold Reader.increaseSpeed Reader.decreaseSpeed
  split_ifs <;> simp_all <;> omega

/-- Witness for C3 amended at `WPM = 300`. -/
theorem speedChange_guarded_witness :
    (100 ≤ (newReader "Hello".toList 300).wpm ∧ (newReader "Hello".toList 300).wpm ≤ 1500
      ∧ (50 : Int) ∣ (newReader "Hello".toList 300).wpm)
    ∧ (100 ≤ (newReader "Hello".toList 300).increaseSpeed.wpm
      ∧ (newReader "Hello".toList 300).increaseSpeed.wpm ≤ 1500) :=
  ⟨⟨by decide, by decide, ⟨6, by decide⟩⟩,
   (speedChange_guarded _ (by decide) (by decide) ⟨6, by decide⟩).1⟩

/-- C5: `Advance` increments `CurrentIndex` and returns true exactly
when `CurrentIndex < len(Words)-1`, else returns false leaving the
session unchanged; the `"Hello world test"` session has 3 words,
`Progress = (1,3)`, reaches `(3,3)` after two advances, and a third
advance returns false. -/
theorem advance_progress (r : Reader) :
    ((r.advance).2 = true ↔ r.currentIndex < r.words.length - 1)
    ∧ (r.currentIndex < r.words.length - 1 →
        r.advance = ({ r with currentIndex := r.currentIndex + 1 }, true))
    ∧ (¬ r.currentIndex < r.words.length - 1 → r.advance = (r, false))
    ∧ ((newReader "Hello world test".toList 500).words.length = 3
      ∧ (newReader "Hello world test".toList 500).progress = (1, 3)
      ∧ ((((newReader "Hello world test".toList 500).advance).1.advance).1.progress = (3, 3))
      ∧ (((((newReader "Hello world test".toList 500).advance).1.advance).1.advance).2 = false)) := by
  refine ⟨?_, ?_, ?_, by decide⟩
  · unfold Reader.advance; split_ifs with h <;> simp [h]
  · intro h; simp [Reader.advance, h]
  · intro h; simp [Reader.advance, h]

/-- Witness for C5: the first advance of the 3-word session. -/
theorem advance_progress_witness :
    (newReader "Hello world test".toList 500).advance =
      ({ newReader "Hello world test".toList 500 with currentIndex := 1 }, true) :=
  (advance_progress _).2.1 (by decide)

/-- C10: `JumpToChapter` with an out-of-bounds word index (negative or
`≥ len(Words)`) leaves the whole session unchanged. -/
theorem jumpToChapter_oob (r : Reader) (w : Int)
    (h : w < 0 ∨ ((r.words.length : Int) ≤ w)) :
    r.jumpToChapter w = r := by
  unfold Reader.jumpToChapter
  rw [if_neg]
  rintro ⟨h1, h2⟩
  omega

/-- Witness for C10: index 5 in a 2-word session. -/
theorem jumpToChapter_oob_witness :
    ((5 : Int) < 0 ∨ (((newReader "a b".toList 300).words.length : Int) ≤ 5))
    ∧ (newReader "a b".toList 300).jumpToChapter 5 = newReader "a b".toList 300 :=
  ⟨by decide, jumpToChapter_oob _ 5 (by decide)⟩

/-- Looking up `fp` after filtering out every `fp` entry finds nothing. -/
theorem lookupFp_filter_self (l : List (List Char × Int)) (fp : List Char) :
    lookupFp (l.filter (fun p => decide (p.1 ≠ fp))) fp = none := by
  induction l with
  | nil => rfl
  | cons hd tl ih =>
    obtain ⟨k, v⟩ := hd
    by_cases hk : k = fp
    · simpa [List.filter_cons, hk] using ih
    · simpa [List.filter_cons, hk, lookupFp] using ih

/-- Filtering cannot make an absent key present. -/
theorem lookupFp_none_filter (l : List (List Char × Int)) (fp : List Char)
    (q : List Char × Int → Bool) (h : lookupFp l fp = none) :
    lookupFp (l.filter q) fp = none := by
  induction l with
  | nil => rfl
  | cons hd tl ih =>
    obtain ⟨k, v⟩ := hd
    rw [lookupFp] at h
    by_cases hk : k = fp
    · simp [hk] at h
    · rw [if_neg hk] at h
      by_cases hq : q (k, v)
      · simpa [List.filter_cons, hq, lookupFp, hk] using ih h
      · simpa [List.filter_cons, hq] using ih h

/-- A sequence of operations none of which sets `fp` keeps `fp` absent. -/
theorem applyOps_no_set (fp : List Char) (ops : List StoreOp) :
    ∀ s : StateStore, lookupFp s.data fp = none →
      (∀ op ∈ ops, op.setsKey fp = false) →
      lookupFp (applyOps s ops).data fp = none := by
  induction ops with
  | nil => intro s hs _; exact hs
  | cons op rest ih =>
    intro s hs hops
    have hop := hops op (by simp)
    have hrest : ∀ o ∈ rest, o.setsKey fp = false := fun o ho => hops o (by simp [ho])
    cases op with
    | set k n =>
      have hk : ¬ k = fp := by simpa [StoreOp.setsKey] using hop
      refine ih _ ?_ hrest
      simp only [applyOps, List.foldl_cons] at *
      show lookupFp ((s.setPosition k n).data) fp = none
      rw [StateStore.setPosition, lookupFp, if_neg hk]
      exact lookupFp_none_filter _ _ _ hs
    | clear k =>
      refine ih _ ?_ hrest
      exact lookupFp_none_filter _ _ _ hs

/-- C9: `SetPosition(fp, n)` then `GetPosition(fp)` yields `n`; after
`Clear(fp)` (from any store) `GetPosition(fp)` yields `0`; and
`GetPosition(fp)` on a store built by operations that never set `fp`
yields `0`. -/
theorem store_roundtrip (s : StateStore) (fp : List Char) (n : Int)
    (ops : List StoreOp) (h : ∀ op ∈ ops, op.setsKey fp = false) :
    ((s.setPosition fp n).getPosition fp = n)
    ∧ (∀ s2 : StateStore, (s2.clear fp).getPosition fp = 0)
    ∧ ((applyOps emptyStore ops).getPosition fp = 0) := by
  refine ⟨?_, ?_, ?_⟩
  · simp [StateStore.setPosition, StateStore.getPosition, lookupFp]
  · intro s2
    show (lookupFp (s2.data.filter (fun p => decide (p.1 ≠ fp))) fp).getD 0 = 0
    rw [lookupFp_filter_self]
    rfl
  · have := applyOps_no_set fp ops emptyStore rfl h
    simp [StateStore.getPosition, this]

/-- Membership in the sentence-start scan: exactly the successors of
in-list indices whose word ends a sentence, subject to the bound. -/
theorem mem_sentenceAux (n k : Nat) (l : List (Nat × List Char)) :
    k ∈ sentenceAux n l ↔
      ∃ i w, (i, w) ∈ l ∧ endsSentence w = true ∧ i + 1 < n ∧ k = i + 1 := by
  induction l with
  | nil => simp [sentenceAux]
  | cons hd tl ih =>
    obtain ⟨i, w⟩ := hd
    rw [sentenceAux]
    split_ifs with hcond
    · simp only [List.mem_cons, ih]
      constructor
      · rintro (rfl | ⟨j, v, hm, he, hn, rfl⟩)
        · exact ⟨i, w, by simp, by exact_mod_cast hcond.1, hcond.2, rfl⟩
        · exact ⟨j, v, by simp [hm], he, hn, rfl⟩
      · rintro ⟨j, v, hm, he, hn, rfl⟩
        rcases hm with h | h
        · left; rw [(Prod.mk.injEq ..).mp h |>.1]
        · right; exact ⟨j, v, h, he, hn, rfl⟩
    · rw [ih]
      constructor
      · rintro ⟨j, v, hm, he, hn, rfl⟩
        exact ⟨j, v, by simp [hm], he, hn, rfl⟩
      · rintro ⟨j, v, hm, he, hn, rfl⟩
        rcases List.mem_cons.mp hm with h | h
        · obtain ⟨h1, h2⟩ := (Prod.mk.injEq ..).mp h
          subst h1; subst h2
          exact absurd ⟨by exact_mod_cast he, hn⟩ hcond
        · exact ⟨j, v, h, he, hn, rfl⟩

/-- The scan preserves strict increase of the carried indices. -/
theorem sentenceAux_pairwise (n : Nat) (l : List (Nat × List Char))
    (hp : l.Pairwise (fun a b => a.1 < b.1)) :
    (sentenceAux n l).Pairwise (· < ·) := by
  induction l with
  | nil => simp [sentenceAux]
  | cons hd tl ih =>
    obtain ⟨i, w⟩ := hd
    rw [List.pairwise_cons] at hp
    rw [sentenceAux]
    split_ifs with hcond
    · refine List.pairwise_cons.mpr ⟨?_, ih hp.2⟩
      intro k hk
      obtain ⟨j, v, hm, _, _, rfl⟩ := (mem_sentenceAux n k tl).mp hk
      have := hp.1 (j, v) hm
      omega
    · exact ih hp.2

/-- The enumerated word list carries strictly increasing indices. -/
theorem enum_fst_pairwise (ws : List (List Char)) :
    ws.enum.Pairwise (fun a b => a.1 < b.1) := by
  have h1 : ((ws.enum.map Prod.fst)).Pairwise (· < ·) := by
    rw [List.enum_map_fst]; exact List.pairwise_lt_range _
  exact List.pairwise_map.mp h1

/-- `FindSentenceStarts` output is strictly increasing. -/
theorem findSentenceStarts_pairwise (ws : List (List Char)) :
    (findSentenceStarts ws).Pairwise (· < ·) := by
  rw [findSentenceStarts]
  refine List.pairwise_cons.mpr ⟨?_, sentenceAux_pairwise _ _ (enum_fst_pairwise ws)⟩
  intro k hk
  obtain ⟨j, v, _, _, _, rfl⟩ := (mem_sentenceAux _ k _).mp hk
  omega

/-- On a non-empty word list every sentence start is in range. -/
theorem findSentenceStarts_in_range (ws : List (List Char)) (hne : ws ≠ []) :
    ∀ i ∈ findSentenceStarts ws, i < ws.length := by
  intro i hi
  rw [findSentenceStarts] at hi
  rcases List.mem_cons.mp hi with h | h
  · subst h; exact List.length_pos.mpr hne
  · obtain ⟨j, v, _, _, hn, rfl⟩ := (mem_sentenceAux _ i _).mp h
    exact hn

/-- C4 counterexample: for the empty word list `FindSentenceStarts`
still returns `[0]` — it contains index 0 (the claim says it should
not), and that sole entry is out of range. -/
theorem findSentenceStarts_nil_counterexample :
    findSentenceStarts ([] : List (List Char)) = [0]
    ∧ ¬ (∀ i ∈ findSentenceStarts ([] : List (List Char)),
          i < ([] : List (List Char)).length) := by
  decide

/-- C4 amended: `FindSentenceStarts(ws)` is strictly increasing, always
contains `0` (also for empty `ws`, where that sole entry `0` is out of
range); on non-empty `ws` every entry is in range; an index `i > 0` is
present iff word `i-1` ends in `.`, `!` or `?` and word `i` exists; and
the five-word example yields `[0, 2]`. -/
theorem findSentenceStarts_spec (ws : List (List Char)) :
    (findSentenceStarts ws).Pairwise (· < ·)
    ∧ 0 ∈ findSentenceStarts ws
    ∧ (ws ≠ [] → ∀ i ∈ findSentenceStarts ws, i < ws.length)
    ∧ (∀ i, 0 < i →
        (i ∈ findSentenceStarts ws ↔
          i < ws.length ∧ ∃ w, ws.get? (i - 1) = some w ∧ endsSentence w = true))
    ∧ findSentenceStarts
        ["Hello,".toList, "world!".toList, "How".toList, "are".toList, "you?".toList]
        = [0, 2] := by
  refine ⟨findSentenceStarts_pairwise ws, by simp [findSentenceStarts],
    findSentenceStarts_in_range ws, ?_, by decide⟩
  intro i hi
  rw [findSentenceStarts]
  constructor
  · intro hmem
    rcases List.mem_cons.mp hmem with h | h
    · omega
    · obtain ⟨j, v, hm, he, hn, rfl⟩ := (mem_sentenceAux _ i _).mp h
      have hget := List.mem_enum_iff_getElem?.mp hm
      exact ⟨hn, v, by simpa [List.get?_eq_getElem?] using hget, he⟩
  · rintro ⟨hlt, w, hget, he⟩
    refine List.mem_cons.mpr (Or.inr ?_)
    refine (mem_sentenceAux _ i _).mpr ⟨i - 1, w, ?_, he, by omega, by omega⟩
    exact List.mem_enum_iff_getElem?.mpr (by simpa [List.get?_eq_getElem?] using hget)

/-- Witness for C4 amended: the two-word stream `["a.", "b"]`. -/
theorem findSentenceStarts_spec_witness :
    (["a.".toList, "b".toList] : List (List Char)) ≠ []
    ∧ ∀ i ∈ findSentenceStarts ["a.".toList, "b".toList],
        i < (["a.".toList, "b".toList] : List (List Char)).length :=
  ⟨by decide, (findSentenceStarts_spec _).2.2.1 (by decide)⟩

/-- A right fold by `max` over a list ending in its largest element
returns that element. -/
theorem foldrMax_all_le (m : List Nat) (a : Nat) (h : ∀ x ∈ m, x ≤ a) :
    (m ++ [a]).foldr Nat.max 0 = a := by
  induction m with
  | nil => simp
  | cons x rest ih =>
    rw [List.cons_append, List.foldr_cons, ih (fun y hy => h y (by simp [hy]))]
    exact Nat.max_eq_right (h x (by simp))

/-- `prevScan` over the reversed list computes the maximum entry below
`cur` (default 0), provided the list is strictly increasing. -/
theorem prevScan_spec (l : List Nat) (cur : Nat) (hp : l.Pairwise (· < ·)) :
    (prevScan l.reverse cur).getD 0 = specPrevTarget l cur := by
  induction l using List.reverseRecOn with
  | nil => rfl
  | append_singleton init a ih =>
    rw [List.pairwise_append] at hp
    rw [List.reverse_append]
    show (prevScan (a :: init.reverse) cur).getD 0 = _
    rw [specPrevTarget, List.filter_append, prevScan]
    split_ifs with ha
    · rw [List.filter_cons, if_pos (by simpa using ha), List.filter_nil]
      refine (foldrMax_all_le _ _ ?_).symm
      intro x hx
      have hxi := List.mem_of_mem_filter hx
      exact Nat.le_of_lt (hp.2.2 x hxi a (by simp))
    · rw [List.filter_cons, if_neg (by simpa using ha), List.filter_nil,
        List.append_nil]
      exact ih hp.1

/-- `nextScan` returns the first entry above `cur`. -/
theorem nextScan_head (l : List Nat) (cur : Nat) :
    nextScan l cur = (l.filter (fun s => decide (cur < s))).head? := by
  induction l with
  | nil => rfl
  | cons a rest ih =>
    rw [nextScan, List.filter_cons]
    by_cases ha : cur < a
    · rw [if_pos ha, if_pos (by simpa using ha)]; rfl
    · rw [if_neg ha, if_neg (by simpa using ha)]; exact ih

/-- For a weakly sorted list the head is the minimum. -/
theorem min_eq_head_sorted (l : List Nat) (hp : l.Pairwise (· ≤ ·)) :
    l.min? = l.head? := by
  cases l with
  | nil => rfl
  | cons a rest =>
    rw [List.min?_cons, List.head?]
    rcases hm : rest.min? with _ | m
    · rfl
    · have hmem := List.min?_mem (fun x y => by omega) hm
      have := (List.pairwise_cons.mp hp).1 m hmem
      simp only [Option.elim]
      congr 1
      omega

/-- C7: with the computed sentence starts (and the session invariant
that an empty stream pins the index at 0), `JumpToPrevSentence` moves to
the largest start strictly below the current index (0 when none) and
`JumpToNextSentence` to the smallest start strictly above (`len-1` when
none); hence from index 0 the former stays at 0, and past the last start
the latter lands on — and repeated calls stay at — `len-1`. -/
theorem jump_sentence_targets (r : Reader)
    (hs : r.sentenceStarts = findSentenceStarts r.words)
    (hinv : r.words = [] → r.currentIndex = 0) :
    (r.jumpToPrevSentence.currentIndex = specPrevTarget r.sentenceStarts r.currentIndex)
    ∧ (r.jumpToNextSentence.currentIndex
        = specNextTarget r.sentenceStarts r.currentIndex r.words.length)
    ∧ (r.currentIndex = 0 → r.jumpToPrevSentence.currentIndex = 0)
    ∧ ((∀ s ∈ r.sentenceStarts, s ≤ r.currentIndex) →
        r.jumpToNextSentence.currentIndex = r.words.length - 1) := by
  have hpair : r.sentenceStarts.Pairwise (· < ·) := by
    rw [hs]; exact findSentenceStarts_pairwise r.words
  have hprev : r.jumpToPrevSentence.currentIndex
      = specPrevTarget r.sentenceStarts r.currentIndex := by
    rw [Reader.jumpToPrevSentence]
    exact prevScan_spec _ _ hpair
  have hnext : r.jumpToNextSentence.currentIndex
      = specNextTarget r.sentenceStarts r.currentIndex r.words.length := by
    rw [Reader.jumpToNextSentence, nextScan_head, specNextTarget,
      ← min_eq_head_sorted _ (hpair.filter _ |>.imp Nat.le_of_lt)]
    rcases hm : (r.sentenceStarts.filter (fun s => decide (r.currentIndex < s))).min? with _ | m
    · show (if 0 < r.words.length then
          { r with currentIndex := r.words.length - 1 } else r).currentIndex = _
      split_ifs with hlen
      · rfl
      · have : r.words = [] := by
          cases hw : r.words with
          | nil => rfl
          | cons x xs => rw [hw] at hlen; simp at hlen
        rw [hinv this, this]
        rfl
    · rfl
  refine ⟨hprev, hnext, ?_, ?_⟩
  · intro h0
    rw [hprev, h0, specPrevTarget]
    have : r.sentenceStarts.filter (fun s => decide (s < 0)) = [] := by
      apply List.filter_eq_nil_iff.mpr
      intro a _
      simp
    rw [this]
    rfl
  · intro hall
    rw [hnext, specNextTarget]
    have : r.sentenceStarts.filter (fun s => decide (r.currentIndex < s)) = [] := by
      apply List.filter_eq_nil_iff.mpr
      intro a ha
      have := hall a ha
      simpa using Nat.not_lt.mpr this
    rw [this]
    rfl

/-- Witness for C7: the three-word session, jumping back from its last
word. -/
theorem jump_sentence_targets_witness :
    ((newReader "One two. Three".toList 300).sentenceStarts
        = findSentenceStarts (newReader "One two. Three".toList 300).words)
    ∧ (newReader "One two. Three".toList 300).jumpToPrevSentence.currentIndex
        = specPrevTarget (newReader "One two. Three".toList 300).sentenceStarts
            (newReader "One two. Three".toList 300).currentIndex :=
  ⟨by decide,
   (jump_sentence_targets _ (by decide) (fun _ => by decide)).1⟩

/-- The descending chapter scan computes the last qualifying index of
an enumerated list. -/
theorem chapterScan_reverse (l : List (Nat × Chapter)) (cur : Nat) :
    chapterScan l.reverse cur
      = (((l.filter (fun p => decide (p.2.wordStart ≤ cur))).map Prod.fst).getLast?).getD 0 := by
  induction l using List.reverseRecOn with
  | nil => rfl
  | append_singleton init x ih =>
    obtain ⟨i, c⟩ := x
    rw [List.reverse_append]
    show chapterScan ((i, c) :: init.reverse) cur = _
    rw [chapterScan, List.filter_append, List.map_append]
    by_cases hx : c.wordStart ≤ cur
    · rw [if_pos hx, List.filter_cons, if_pos (by simpa using hx), List.filter_nil,
        List.map_cons, List.map_nil, List.getLast?_concat]
      rfl
    · rw [if_neg hx, List.filter_cons, if_neg (by simpa using hx), List.filter_nil,
        List.map_nil, List.append_nil]
      exact ih

/-- C2 counterexample: in a two-chapter session `Advance` crosses the
chapter boundary but `CurrentChapter` is not recomputed, so the claimed
invariant fails right after `Advance`. -/
theorem currentChapter_stale_after_advance :
    ((((newReader "a b".toList 300).setChapters
        [⟨"c1".toList, 0, 0⟩, ⟨"c2".toList, 1, 1⟩] []).advance).1.currentChapter = 0)
    ∧ (specCurrentChapter
        ((((newReader "a b".toList 300).setChapters
          [⟨"c1".toList, 0, 0⟩, ⟨"c2".toList, 1, 1⟩] []).advance).1.chapters)
        ((((newReader "a b".toList 300).setChapters
          [⟨"c1".toList, 0, 0⟩, ⟨"c2".toList, 1, 1⟩] []).advance).1.currentIndex) = 1)
    ∧ ((((newReader "a b".toList 300).setChapters
        [⟨"c1".toList, 0, 0⟩, ⟨"c2".toList, 1, 1⟩] []).advance).1.currentChapter ≠
       specCurrentChapter
        ((((newReader "a b".toList 300).setChapters
          [⟨"c1".toList, 0, 0⟩, ⟨"c2".toList, 1, 1⟩] []).advance).1.chapters)
        ((((newReader "a b".toList 300).setChapters
          [⟨"c1".toList, 0, 0⟩, ⟨"c2".toList, 1, 1⟩] []).advance).1.currentIndex)) := by
  decide

/-- C2 amended: `CurrentChapter` equals the largest chapter index whose
`WordStart ≤ CurrentIndex` (0 when none, in particular for an empty
chapter list) after construction, after `SetChapters`, and after an
in-bounds `JumpToChapter`; `Advance` and the sentence jumps leave
`CurrentChapter` untouched, so the correspondence can lapse after
them. -/
theorem currentChapter_recomputed (r : Reader) :
    (∀ text wpm, (newReader text wpm).currentChapter
        = specCurrentChapter (newReader text wpm).chapters (newReader text wpm).currentIndex)
    ∧ (∀ ch toc2, (r.setChapters ch toc2).currentChapter
        = specCurrentChapter (r.setChapters ch toc2).chapters (r.setChapters ch toc2).currentIndex)
    ∧ (∀ w : Int, 0 ≤ w → w < (r.words.length : Int) →
        (r.jumpToChapter w).currentChapter
          = specCurrentChapter (r.jumpToChapter w).chapters (r.jumpToChapter w).currentIndex)
    ∧ ((r.advance).1.currentChapter = r.currentChapter)
    ∧ (r.jumpToPrevSentence.currentChapter = r.currentChapter)
    ∧ (r.jumpToNextSentence.currentChapter = r.currentChapter) := by
  refine ⟨?_, ?_, ?_, ?_, rfl, ?_⟩
  · intro text wpm; rfl
  · intro ch toc2
    exact chapterScan_reverse ch.enum r.currentIndex
  · intro w h1 h2
    rw [Reader.jumpToChapter, if_pos ⟨h1, h2⟩]
    exact chapterScan_reverse r.chapters.enum w.toNat
  · rw [Reader.advance]; split_ifs <;> rfl
  · rw [Reader.jumpToNextSentence]
    cases nextScan r.sentenceStarts r.currentIndex with
    | some s => rfl
    | none =>
      show (if 0 < r.words.length then
        { r with currentIndex := r.words.length - 1 } else r).currentChapter = _
      split_ifs <;> rfl

/-- Witness for C2 amended: an in-bounds `JumpToChapter` recomputes the
chapter correctly. -/
theorem currentChapter_recomputed_witness :
    ((0 : Int) ≤ 1 ∧ (1 : Int) < ((((newReader "a b".toList 300).setChapters
        [⟨"c1".toList, 0, 0⟩, ⟨"c2".toList, 1, 1⟩] []).words.length : Int)))
    ∧ ((((newReader "a b".toList 300).setChapters
        [⟨"c1".toList, 0, 0⟩, ⟨"c2".toList, 1, 1⟩] []).jumpToChapter 1).currentChapter
      = specCurrentChapter
          ((((newReader "a b".toList 300).setChapters
            [⟨"c1".toList, 0, 0⟩, ⟨"c2".toList, 1, 1⟩] []).jumpToChapter 1).chapters)
          ((((newReader "a b".toList 300).setChapters
            [⟨"c1".toList, 0, 0⟩, ⟨"c2".toList, 1, 1⟩] []).jumpToChapter 1).currentIndex)) :=
  ⟨⟨by decide, by decide⟩,
   (currentChapter_recomputed _).2.2.1 1 (by decide) (by decide)⟩

/-- The empty and singleton chapter lists are contiguous. -/
theorem contig_small (c : Chapter) :
    ChaptersContiguous [] ∧ ChaptersContiguous [c] := by
  constructor <;> intro i hi <;> simp at hi

/-- Appending a chapter that starts right after the current last chapter
preserves contiguity. -/
theorem contig_concat (cs : List Chapter) (c : Chapter) (h : ChaptersContiguous cs)
    (h2 : ∀ l2, cs.getLast? = some l2 → l2.wordEnd + 1 = c.wordStart) :
    ChaptersContiguous (cs ++ [c]) := by
  intro i hi
  have hlen : (cs ++ [c]).length = cs.length + 1 := by simp
  rcases Nat.lt_or_ge (i + 1) cs.length with hlt | hge
  · rw [List.getElem_append_left hlt, List.getElem_append_left (Nat.lt_of_succ_lt hlt)]
    exact h i hlt
  · have hi1 : i + 1 = cs.length := by omega
    have hic : i < cs.length := by omega
    have hlast : cs.getLast? = some cs[i] := by
      have hidx : cs.length - 1 = i := by omega
      rw [List.getLast?_eq_getElem?, hidx, List.getElem?_eq_getElem hic]
    have hend := h2 _ hlast
    rw [List.getElem_append_right (by omega : cs.length ≤ i + 1),
      List.getElem_append_left hic]
    simp only [hi1, Nat.sub_self, List.getElem_cons_zero]
    exact hend.symm

/-- Closing the open Markdown chapter keeps the closed list contiguous
and well-formed, and its new last chapter ends at the current word
count. -/
theorem mdCloseCurrent_inv (st : MdState) (h : MdInv st) :
    ChaptersContiguous (mdCloseCurrent st)
    ∧ (∀ c ∈ mdCloseCurrent st, c.wordStart ≤ c.wordEnd)
    ∧ (∀ l2, (mdCloseCurrent st).getLast? = some l2 →
        l2.wordEnd + 1 = st.allWords.length) := by
  obtain ⟨hc, hb, hcur⟩ := h
  rw [mdCloseCurrent]
  cases hcc : st.current with
  | none =>
    have hch : st.chapters = [] := by rw [hcc] at hcur; exact hcur
    show ChaptersContiguous st.chapters
      ∧ (∀ c ∈ st.chapters, c.wordStart ≤ c.wordEnd)
      ∧ (∀ l2, st.chapters.getLast? = some l2 → l2.wordEnd + 1 = st.allWords.length)
    rw [hch]
    exact ⟨(contig_small ⟨[], 0, 0⟩).1, by simp, by simp⟩
  | some tw =>
    rw [hcc] at hcur
    obtain ⟨hsum, hne, hlast⟩ := hcur
    have hcwpos : 0 < st.currentWords.length := List.length_pos.mpr hne
    have hawpos : 0 < st.allWords.length := by omega
    have hempty : ¬ st.currentWords.isEmpty := by
      simpa [List.isEmpty_iff] using hne
    show ChaptersContiguous (if st.currentWords.isEmpty then st.chapters
        else st.chapters ++ [⟨tw.1, tw.2, st.allWords.length - 1⟩])
      ∧ (∀ c ∈ (if st.currentWords.isEmpty then st.chapters
        else st.chapters ++ [⟨tw.1, tw.2, st.allWords.length - 1⟩]),
          c.wordStart ≤ c.wordEnd)
      ∧ (∀ l2, (if st.currentWords.isEmpty then st.chapters
        else st.chapters ++ [⟨tw.1, tw.2, st.allWords.length - 1⟩]).getLast? = some l2 →
          l2.wordEnd + 1 = st.allWords.length)
    rw [if_neg hempty]
    refine ⟨contig_concat _ _ hc ?_, ?_, ?_⟩
    · intro l2 hl2
      rw [hlast l2 hl2]
    · intro c hcmem
      rcases List.mem_append.mp hcmem with hm | hm
      · exact hb c hm
      · have : c = ⟨tw.1, tw.2, st.allWords.length - 1⟩ := by simpa using hm
        rw [this]
        show tw.2 ≤ st.allWords.length - 1
        omega
    · intro l2 hl2
      rw [List.getLast?_concat] at hl2
      have : l2 = ⟨tw.1, tw.2, st.allWords.length - 1⟩ := by
        exact (Option.some.injEq ..).mp hl2.symm
      rw [this]
      show st.allWords.length - 1 + 1 = st.allWords.length
      omega

/-- A nonempty accumulated field guarantees a nonempty split. -/
theorem fieldsAux_ne_nil (s : List Char) : ∀ acc : List Char, acc ≠ [] →
    fieldsAux s acc ≠ [] := by
  induction s with
  | nil =>
    intro acc h
    rw [fieldsAux, if_neg (by simpa [List.isEmpty_iff] using h)]
    simp
  | cons c rest ih =>
    intro acc h
    rw [fieldsAux]
    split_ifs with h1 h2
    · exact absurd (List.isEmpty_iff.mp h2) h
    · simp
    · exact ih _ (by simp)

/-- A line whose first character is not whitespace has at least one
field. -/
theorem fields_ne_nil_of_head (c : Char) (rest : List Char)
    (hc : isGoSpace c = false) : fields (c :: rest) ≠ [] := by
  rw [fields, fieldsAux]
  rw [if_neg (by simp [hc])]
  exact fieldsAux_ne_nil rest [c] (by simp)

/-- A header line contributes at least one word (it starts with `#`,
which is not whitespace). -/
theorem headerMatch_fields_ne_nil (line : List Char)
    (h : (headerMatch line).isSome) : fields line ≠ [] := by
  cases line with
  | nil => simp [headerMatch, List.takeWhile] at h
  | cons c rest =>
    by_cases hc : c = '#'
    · subst hc
      exact fields_ne_nil_of_head _ _ (by decide)
    · exfalso
      simp [headerMatch, List.takeWhile_cons, hc] at h

/-- One Markdown scan step preserves the invariant. -/
theorem mdStep_inv (st : MdState) (line : List Char) (h : MdInv st) :
    MdInv (mdStep st line) := by
  have hmain := h
  obtain ⟨hc, hb, hcur⟩ := h
  rw [mdStep]
  cases hm : headerMatch line with
  | none =>
    refine ⟨hc, hb, ?_⟩
    show (match st.current with
      | none => st.chapters = []
      | some tw =>
        tw.2 + (st.currentWords ++ fields line).length = (st.allWords ++ fields line).length
        ∧ st.currentWords ++ fields line ≠ []
        ∧ (∀ l2, st.chapters.getLast? = some l2 → l2.wordEnd + 1 = tw.2))
    cases hcc : st.current with
    | none => rw [hcc] at hcur; exact hcur
    | some tw =>
      rw [hcc] at hcur
      obtain ⟨hsum, hne, hlast⟩ := hcur
      refine ⟨by simp; omega, by simp [hne], hlast⟩
  | some m =>
    obtain ⟨hcc, hcb, hcl⟩ := mdCloseCurrent_inv st hmain
    have hws : fields line ≠ [] := headerMatch_fields_ne_nil line (by rw [hm]; rfl)
    refine ⟨hcc, hcb, ?_⟩
    show st.allWords.length + ([] ++ fields line).length
          = (st.allWords ++ fields line).length
        ∧ ([] : List (List Char)) ++ fields line ≠ []
        ∧ (∀ l2, (mdCloseCurrent st).getLast? = some l2 →
            l2.wordEnd + 1 = st.allWords.length)
    exact ⟨by simp, by simpa using hws, hcl⟩

/-- The whole Markdown scan preserves the invariant. -/
theorem mdFold_inv (lines : List (List Char)) : ∀ st : MdState, MdInv st →
    MdInv (lines.foldl mdStep st) := by
  induction lines with
  | nil => intro st h; exact h
  | cons l rest ih => intro st h; exact ih _ (mdStep_inv st l h)

/-- One EPUB spine step preserves the invariant. -/
theorem epubStep_inv (tocByHref : List (List Char × List Char))
    (st : List Chapter × List (List Char)) (p : Nat × SpineItem)
    (h : EpubInv st) : EpubInv (epubStep tocByHref st p) := by
  obtain ⟨hc, hb, hlast⟩ := h
  rw [epubStep]
  cases p.2.text with
  | none => exact ⟨hc, hb, hlast⟩
  | some text =>
    show EpubInv (if (fields text).isEmpty then st
      else (st.1 ++ [⟨epubChapterTitle tocByHref p.1 p.2.href, st.2.length,
          (st.2 ++ fields text).length - 1⟩], st.2 ++ fields text))
    by_cases hw : (fields text).isEmpty
    · rw [if_pos hw]
      exact ⟨hc, hb, hlast⟩
    · rw [if_neg hw]
      have hwlen : 0 < (fields text).length :=
        List.length_pos.mpr (by simpa [List.isEmpty_iff] using hw)
      refine ⟨contig_concat _ _ hc (fun l2 hl2 => hlast l2 hl2), ?_, ?_⟩
      · intro c hcmem
        rcases List.mem_append.mp hcmem with hm | hm
        · exact hb c hm
        · have : c = ⟨epubChapterTitle tocByHref p.1 p.2.href, st.2.length,
              (st.2 ++ fields text).length - 1⟩ := by simpa using hm
          rw [this]
          show st.2.length ≤ (st.2 ++ fields text).length - 1
          simp
          omega
      · intro l2 hl2
        rw [List.getLast?_concat] at hl2
        have : l2 = ⟨epubChapterTitle tocByHref p.1 p.2.href, st.2.length,
            (st.2 ++ fields text).length - 1⟩ :=
          (Option.some.injEq ..).mp hl2.symm
        rw [this]
        show (st.2 ++ fields text).length - 1 + 1 = (st.2 ++ fields text).length
        simp
        omega

/-- The whole EPUB spine walk preserves the invariant. -/
theorem epubFold_inv (tocByHref : List (List Char × List Char))
    (l : List (Nat × SpineItem)) : ∀ st, EpubInv st →
    EpubInv (l.foldl (epubStep tocByHref) st) := by
  induction l with
  | nil => intro st h; exact h
  | cons p rest ih => intro st h; exact ih _ (epubStep_inv tocByHref st p h)

/-- C6: both chapter-aware extractors produce contiguous,
non-overlapping chapters: consecutive chapters satisfy
`Chapters[i+1].WordStart = Chapters[i].WordEnd + 1`, and every chapter
has `WordStart ≤ WordEnd`. -/
theorem extractChapters_contiguous :
    (∀ lines : List (List Char),
      ChaptersContiguous (markdownExtractChapters lines).1
      ∧ ∀ c ∈ (markdownExtractChapters lines).1, c.wordStart ≤ c.wordEnd)
    ∧ (∀ (tocByHref : List (List Char × List Char)) (spine : List SpineItem),
      ChaptersContiguous (epubExtractChapters tocByHref spine).1
      ∧ ∀ c ∈ (epubExtractChapters tocByHref spine).1, c.wordStart ≤ c.wordEnd) := by
  constructor
  · intro lines
    have hinit : MdInv ⟨[], [], none, []⟩ :=
      ⟨(contig_small ⟨[], 0, 0⟩).1, by simp, rfl⟩
    have hst := mdFold_inv lines _ hinit
    obtain ⟨hcc, hcb, _⟩ := mdCloseCurrent_inv _ hst
    by_cases hdoc : (mdCloseCurrent (lines.foldl mdStep ⟨[], [], none, []⟩)).isEmpty
        ∧ ¬ (lines.foldl mdStep ⟨[], [], none, []⟩).allWords.isEmpty
    · have heq : (markdownExtractChapters lines).1
          = [⟨"Document".toList, 0,
              (lines.foldl mdStep ⟨[], [], none, []⟩).allWords.length - 1⟩] := by
        show (if (mdCloseCurrent (lines.foldl mdStep ⟨[], [], none, []⟩)).isEmpty
            ∧ ¬ (lines.foldl mdStep ⟨[], [], none, []⟩).allWords.isEmpty
          then [⟨"Document".toList, 0,
              (lines.foldl mdStep ⟨[], [], none, []⟩).allWords.length - 1⟩]
          else mdCloseCurrent (lines.foldl mdStep ⟨[], [], none, []⟩)) = _
        rw [if_pos hdoc]
      rw [heq]
      exact ⟨(contig_small _).2, by simp⟩
    · have heq : (markdownExtractChapters lines).1
          = mdCloseCurrent (lines.foldl mdStep ⟨[], [], none, []⟩) := by
        show (if (mdCloseCurrent (lines.foldl mdStep ⟨[], [], none, []⟩)).isEmpty
            ∧ ¬ (lines.foldl mdStep ⟨[], [], none, []⟩).allWords.isEmpty
          then [⟨"Document".toList, 0,
              (lines.foldl mdStep ⟨[], [], none, []⟩).allWords.length - 1⟩]
          else mdCloseCurrent (lines.foldl mdStep ⟨[], [], none, []⟩)) = _
        rw [if_neg hdoc]
      rw [heq]
      exact ⟨hcc, hcb⟩
  · intro tocByHref spine
    have hinit : EpubInv ([], []) := ⟨(contig_small ⟨[], 0, 0⟩).1, by simp, by simp⟩
    exact (epubFold_inv tocByHref spine.enum ([], []) hinit).imp
      id (fun hh => hh.1)

/-!  The bit-exact delay computation is checked against the integer
quotient over `WPM ∈ [100, 1500]` in blocks of 100 (kept small so the
kernel's recursive evaluation stays within stack bounds). -/

set_option maxRecDepth 4000 in
theorem goDelayMs_block0 : ∀ k < 100, goDelayMs (100 + k) = 60000 / (100 + k) := by decide

set_option maxRecDepth 4000 in
theorem goDelayMs_block1 : ∀ k < 100, goDelayMs (200 + k) = 60000 / (200 + k) := by decide

set_option maxRecDepth 4000 in
theorem goDelayMs_block2 : ∀ k < 100, goDelayMs (300 + k) = 60000 / (300 + k) := by decide

set_option maxRecDepth 4000 in
theorem goDelayMs_block3 : ∀ k < 100, goDelayMs (400 + k) = 60000 / (400 + k) := by decide

set_option maxRecDepth 4000 in
theorem goDelayMs_block4 : ∀ k < 100, goDelayMs (500 + k) = 60000 / (500 + k) := by decide

set_option maxRecDepth 4000 in
theorem goDelayMs_block5 : ∀ k < 100, goDelayMs (600 + k) = 60000 / (600 + k) := by decide

set_option maxRecDepth 4000 in
theorem goDelayMs_block6 : ∀ k < 100, goDelayMs (700 + k) = 60000 / (700 + k) := by decide

set_option maxRecDepth 4000 in
theorem goDelayMs_block7 : ∀ k < 100, goDelayMs (800 + k) = 60000 / (800 + k) := by decide

set_option maxRecDepth 4000 in
theorem goDelayMs_block8 : ∀ k < 100, goDelayMs (900 + k) = 60000 / (900 + k) := by decide

set_option maxRecDepth 4000 in
theorem goDelayMs_block9 : ∀ k < 100, goDelayMs (1000 + k) = 60000 / (1000 + k) := by decide

set_option maxRecDepth 4000 in
theorem goDelayMs_block10 : ∀ k < 100, goDelayMs (1100 + k) = 60000 / (1100 + k) := by decide

set_option maxRecDepth 4000 in
theorem goDelayMs_block11 : ∀ k < 100, goDelayMs (1200 + k) = 60000 / (1200 + k) := by decide

set_option maxRecDepth 4000 in
theorem goDelayMs_block12 : ∀ k < 100, goDelayMs (1300 + k) = 60000 / (1300 + k) := by decide

set_option maxRecDepth 4000 in
theorem goDelayMs_block13 : ∀ k < 100, goDelayMs (1400 + k) = 60000 / (1400 + k) := by decide

set_option maxRecDepth 4000 in
theorem goDelayMs_top : goDelayMs 1500 = 60000 / 1500 := by decide

/-- The emulated binary64 pipeline agrees with the integer quotient on
the whole admissible range. -/
theorem goDelayMs_range (w : Nat) (h1 : 100 ≤ w) (h2 : w ≤ 1500) :
    goDelayMs w = 60000 / w := by
  rcases Nat.lt_or_ge w 200 with hb | hb
  · have := goDelayMs_block0 (w - 100) (by omega)
    rwa [show 100 + (w - 100) = w by omega] at this
  rcases Nat.lt_or_ge w 300 with hb2 | hb2
  · have := goDelayMs_block1 (w - 200) (by omega)
    rwa [show 200 + (w - 200) = w by omega] at this
  rcases Nat.lt_or_ge w 400 with hb3 | hb3
  · have := goDelayMs_block2 (w - 300) (by omega)
    rwa [show 300 + (w - 300) = w by omega] at this
  rcases Nat.lt_or_ge w 500 with hb4 | hb4
  · have := goDelayMs_block3 (w - 400) (by omega)
    rwa [show 400 + (w - 400) = w by omega] at this
  rcases Nat.lt_or_ge w 600 with hb5 | hb5
  · have := goDelayMs_block4 (w - 500) (by omega)
    rwa [show 500 + (w - 500) = w by omega] at this
  rcases Nat.lt_or_ge w 700 with hb6 | hb6
  · have := goDelayMs_block5 (w - 600) (by omega)
    rwa [show 600 + (w - 600) = w by omega] at this
  rcases Nat.lt_or_ge w 800 with hb7 | hb7
  · have := goDelayMs_block6 (w - 700) (by omega)
    rwa [show 700 + (w - 700) = w by omega] at this
  rcases Nat.lt_or_ge w 900 with hb8 | hb8
  · have := goDelayMs_block7 (w - 800) (by omega)
    rwa [show 800 + (w - 800) = w by omega] at this
  rcases Nat.lt_or_ge w 1000 with hb9 | hb9
  · have := goDelayMs_block8 (w - 900) (by omega)
    rwa [show 900 + (w - 900) = w by omega] at this
  rcases Nat.lt_or_ge w 1100 with hb10 | hb10
  · have := goDelayMs_block9 (w - 1000) (by omega)
    rwa [show 1000 + (w - 1000) = w by omega] at this
  rcases Nat.lt_or_ge w 1200 with hb11 | hb11
  · have := goDelayMs_block10 (w - 1100) (by omega)
    rwa [show 1100 + (w - 1100) = w by omega] at this
  rcases Nat.lt_or_ge w 1300 with hb12 | hb12
  · have := goDelayMs_block11 (w - 1200) (by omega)
    rwa [show 1200 + (w - 1200) = w by omega] at this
  rcases Nat.lt_or_ge w 1400 with hb13 | hb13
  · have := goDelayMs_block12 (w - 1300) (by omega)
    rwa [show 1300 + (w - 1300) = w by omega] at this
  rcases Nat.lt_or_ge w 1500 with hb14 | hb14
  · have := goDelayMs_block13 (w - 1400) (by omega)
    rwa [show 1400 + (w - 1400) = w by omega] at this
  · have hw : w = 1500 := by omega
    rw [hw]
    exact goDelayMs_top

/-- C8: for `WPM ∈ [100, 1500]`, `GetDelay` — computed in binary64 and
truncated to whole milliseconds by the `time.Duration` conversion —
equals `60000 / WPM` milliseconds (the integer quotient, exact whenever
`WPM` divides 60000); at `WPM = 500` it is exactly 120 ms. -/
theorem getDelay_div (r : Reader) (h1 : 100 ≤ r.wpm) (h2 : r.wpm ≤ 1500) :
    r.getDelayMs = 60000 / r.wpm.toNat
    ∧ (r.wpm = 500 → r.getDelayMs = 120) := by
  have ht1 : 100 ≤ r.wpm.toNat := by omega
  have ht2 : r.wpm.toNat ≤ 1500 := by omega
  refine ⟨goDelayMs_range r.wpm.toNat ht1 ht2, ?_⟩
  intro h5
  show goDelayMs r.wpm.toNat = 120
  rw [show r.wpm.toNat = 500 by omega]
  rw [goDelayMs_range 500 (by omega) (by omega)]

/-- Witness for C8: the `WPM = 500` session from the end-to-end
scenario. -/
theorem getDelay_div_witness :
    (100 ≤ (newReader "Hello world test".toList 500).wpm
      ∧ (newReader "Hello world test".toList 500).wpm ≤ 1500)
    ∧ (newReader "Hello world test".toList 500).getDelayMs = 120 :=
  ⟨⟨by decide, by decide⟩,
   (getDelay_div (newReader "Hello world test".toList 500)
     (by decide) (by decide)).2 (by decide)⟩

/-- Witness for C9: the fingerprint `"a"` against a sequence touching
only `"b"`. -/
theorem store_roundtrip_witness :
    (∀ op ∈ [StoreOp.set "b".toList 7, StoreOp.clear "b".toList],
        op.setsKey "a".toList = false)
    ∧ (emptyStore.setPosition "a".toList 1234).getPosition "a".toList = 1234
    ∧ (applyOps emptyStore [StoreOp.set "b".toList 7, StoreOp.clear "b".toList]).getPosition
        "a".toList = 0 := by
  refine ⟨by decide, ?_, ?_⟩
  · exact (store_roundtrip emptyStore "a".toList 1234
      [StoreOp.set "b".toList 7, StoreOp.clear "b".toList] (by decide)).1
  · exact (store_roundtrip emptyStore "a".toList 1234
      [StoreOp.set "b".toList 7, StoreOp.clear "b".toList] (by decide)).2.2

end Brr
